import Mathlib

/-!
Shallow embedding of the nsc-automate scripts, faithful to the source:

* `src/get_nsc_files.py` — the inbound sync: watermark filtering of the
  remote listing (lines 127-152), filename decomposition by the fixed
  regular expression (lines 168-189), the rename-rule loop
  (lines 195-240), per-file download and watermark tracking
  (lines 242-257), and the final watermark commit (lines 290-292).
* `src/send_nsc_files.py` — the outbound path: upload, audit record,
  archive move (lines 126-148).

Timestamps (`st_mtime` floats in the source) are modelled as `Int`: the
scripts only ever compare them with `<=` / `>` and take maxima, so any
linear order is faithful; `Int` keeps every statement decidable.
-/

namespace Nsc

/-! ### Filename decomposition, `get_nsc_files.py` lines 162-189

The source matches each remote name against the anchored pattern

  `^(?P<schoolcode>.+)_(?P<idx>.+)_(?P<nsctype>\w+)_(?P<nscmode>\w+)_`
  `(?P<subdatetime>\d{8}\d{6})_(?P<fn>.+)\.(?P<ext>\w+)$`

with Python `re.match` semantics: greedy `.+` / `\w+` groups with
backtracking, `.` matching any character except a newline.  `\w` and `\d`
are modelled at their ASCII core (the remote names are ASCII). -/

/-- Python `\w`: a letter, a digit or an underscore. -/
def isWordChar (c : Char) : Bool := c.isAlphanum || c == '_'

/-- Python `.` without DOTALL: any character except a newline. -/
def isDotChar (c : Char) : Bool := c != '\n'

/-- The named groups bound by the filename regex (lines 180-189). -/
structure DecomposedName where
  schoolcode : String
  idx : String
  nsctype : String
  nscmode : String
  subdatetime : String
  fn : String
  ext : String
deriving Repr, DecidableEq

/-- All splits of `l` into a nonempty prefix and the remaining suffix,
longest prefix first: the candidate order a greedy group explores under
backtracking. -/
def splitsDesc (l : List Char) : List (List Char × List Char) :=
  (List.range l.length).map (fun k => (l.take (l.length - k), l.drop (l.length - k)))

/-- Tail `(?P<fn>.+)\.(?P<ext>\w+)$`: greedy `fn`, then a literal dot,
then a nonempty word-character extension reaching the end. -/
def matchFnExt (l : List Char) : Option (String × String) :=
  (splitsDesc l).findSome? (fun pr =>
    if pr.1.all isDotChar then
      match pr.2 with
      | '.' :: ext =>
          if ext ≠ [] ∧ ext.all isWordChar then
            some (String.mk pr.1, String.mk ext)
          else none
      | _ => none
    else none)

/-- `(?P<subdatetime>\d{8}\d{6})_` — exactly fourteen digits and an
underscore — followed by the `fn`/`ext` tail. -/
def matchSubdatetime (l : List Char) : Option (String × String × String) :=
  let d := l.take 14
  if d.length == 14 && d.all Char.isDigit then
    match l.drop 14 with
    | '_' :: rest => (matchFnExt rest).map (fun p => (String.mk d, p.1, p.2))
    | _ => none
  else none

/-- `(?P<nscmode>\w+)_` (greedy) followed by the subdatetime tail. -/
def matchNscmode (l : List Char) : Option (String × String × String × String) :=
  (splitsDesc l).findSome? (fun pr =>
    if pr.1.all isWordChar then
      match pr.2 with
      | '_' :: rest => (matchSubdatetime rest).map (fun p => (String.mk pr.1, p))
      | _ => none
    else none)

/-- `(?P<nsctype>\w+)_` (greedy) followed by the mode tail. -/
def matchNsctype (l : List Char) :
    Option (String × String × String × String × String) :=
  (splitsDesc l).findSome? (fun pr =>
    if pr.1.all isWordChar then
      match pr.2 with
      | '_' :: rest => (matchNscmode rest).map (fun p => (String.mk pr.1, p))
      | _ => none
    else none)

/-- `(?P<idx>.+)_` (greedy) followed by the type tail. -/
def matchIdx (l : List Char) :
    Option (String × String × String × String × String × String) :=
  (splitsDesc l).findSome? (fun pr =>
    if pr.1.all isDotChar then
      match pr.2 with
      | '_' :: rest => (matchNsctype rest).map (fun p => (String.mk pr.1, p))
      | _ => none
    else none)

/-- `re.match` of the whole filename pattern (lines 168-180): `none`
when the name does not match the grammar, otherwise the named groups. -/
def nscDecompose (s : String) : Option DecomposedName :=
  (splitsDesc s.toList).findSome? (fun pr =>
    if pr.1.all isDotChar then
      match pr.2 with
      | '_' :: rest =>
          (matchIdx rest).map (fun p =>
            { schoolcode := String.mk pr.1
              idx := p.1
              nsctype := p.2.1
              nscmode := p.2.2.1
              subdatetime := p.2.2.2.1
              fn := p.2.2.2.2.1
              ext := p.2.2.2.2.2 })
      | _ => none
    else none)

/-! ### The rename-rule catalog and the resolution loop,
`get_nsc_files.py` lines 191-240

One entry of `cfg["nsc"]["rename"]`.  The secondary regex is abstracted
as the outcome of `re.match(entry["pattern"], fn)` — `none` for a miss,
`some groups` for a hit — and the `replace` format string as the
function rendering it over the decomposed fields plus those captured
groups (the source passes both through module globals; lines 197-201
delete the previous iteration's captures, so each iteration sees exactly
its own). -/
structure RenameRule where
  mode : Option String
  patt : Option (String → Option (List (String × String)))
  replace : DecomposedName → List (String × String) → String
  importFlag : Bool

/-- One iteration's `local_file_name` (lines 203-226).  When the mode
filter matches (line 204) the template is rendered (line 221) whether or
not a declared secondary pattern matched: the `continue` for a pattern
miss (line 217) sits under `if fn_match:` inside a branch that is only
entered when `fn_match` is truthy (the walrus assignment is conjoined
into the condition on line 207), so it is unreachable and a pattern miss
falls through to the template with no captured groups.  When the mode
filter does not match, the original remote name is used (line 226). -/
def stepName (d : DecomposedName) (fileName : String) (r : RenameRule) : String :=
  match r.mode with
  | some m =>
      if d.nscmode == m then
        let caps : List (String × String) :=
          match r.patt with
          | some p => (p d.fn).getD []
          | none => []
        r.replace d caps
      else fileName
  | none => fileName

/-- One pass of the rename loop (lines 195-240) over the running
`(local_file_name, import_cmd)` state.  The loop has no `break`: every
entry overwrites `local_file_name` (and `local_file_path`, line 230).
`import_cmd` (lines 232-240) is overwritten whenever the decomposed type
equals `cfg["nsc"]["import"]["type"]` and the entry's `import` flag is
set — the mode match is not consulted — and it captures the
`local_file_path` current at that iteration; we record the file-name
component (the directory prefix is the constant local receive path). -/
def ruleStep (importType : String) (d : DecomposedName) (fileName : String)
    (st : Option String × Option String) (r : RenameRule) :
    Option String × Option String :=
  let localName := stepName d fileName r
  let importName := if d.nsctype == importType && r.importFlag then some localName else st.2
  (some localName, importName)

/-- The whole rename loop for one file: the final `local_file_name`
(`none` only for an empty catalog, where the variable is never bound)
and the file name embedded in the final `import_cmd` (`none` when
`import_cmd` is still the empty string, so no import is dispatched,
line 272). -/
def resolveFile (rules : List RenameRule) (importType : String)
    (d : DecomposedName) (fileName : String) : Option String × Option String :=
  rules.foldl (ruleStep importType d fileName) (none, none)

/-- Processing one remote name through decomposition and the rename
loop (lines 180-240).  When the grammar match fails, the `match` branch
on lines 181-189 never runs, so the named-group globals (`nscmode`,
`nsctype`, `fn`, ...) are unbound; the loop body's first access —
`globals()["nscmode"]` on line 204, or `globals()["nsctype"]` on
line 232 — then raises a `KeyError`, which nothing catches. -/
def processName (rules : List RenameRule) (importType : String) (s : String) :
    Except String (Option String × Option String) :=
  match nscDecompose s with
  | some d => Except.ok (resolveFile rules importType d s)
  | none => Except.error "KeyError"

/-! ### Watermark filtering and commit, `get_nsc_files.py`
lines 127-152, 242-257 and 290-292 -/

/-- One remote listing entry (`sftp.listdir_attr()`): its name and its
`st_mtime`, which paramiko may report as absent. -/
structure RemoteEntry where
  filename : String
  st_mtime : Option Int
deriving Repr, DecidableEq

/-- The skip test of lines 146-152: an entry is skipped exactly when a
watermark is stored, the entry carries a modification time, and that
time is `<=` the watermark. -/
def skipEntry (latest : Option Int) (e : RemoteEntry) : Bool :=
  match latest, e.st_mtime with
  | some w, some t => decide (t ≤ w)
  | _, _ => false

/-- The entries a run retains for processing: those the loop does not
`continue` past. -/
def retainedEntries (latest : Option Int) (es : List RemoteEntry) : List RemoteEntry :=
  es.filter (fun e => !skipEntry latest e)

/-- The `new_latest_file_time` update of lines 253-257: assign the
entry's `st_mtime` when the running value is still `None`, or when the
entry has a time strictly above the running value. -/
def updateLatest (nl : Option Int) (e : RemoteEntry) : Option Int :=
  match nl with
  | none => e.st_mtime
  | some v =>
      match e.st_mtime with
      | some t => if v < t then some t else some v
      | none => some v

/-- The candidate watermark accumulated over a processed batch. -/
def batchLatest (es : List RemoteEntry) : Option Int :=
  es.foldl updateLatest none

/-- The commit of lines 290-292: the marker file's mtime is rewritten to
`new_latest_file_time` when one was observed; otherwise the marker — and
with it the stored watermark, present or absent — is left untouched. -/
def commitWatermark (old : Option Int) (nl : Option Int) : Option Int :=
  match nl with
  | some v => some v
  | none => old

/-- One inbound run in which every download succeeds: the retained
entries, and the stored watermark after the run. -/
def runGet (w : Option Int) (es : List RemoteEntry) :
    List RemoteEntry × Option Int :=
  let r := retainedEntries w es
  (r, commitWatermark w (batchLatest r))

/-- The per-file part of the loop with `sftp.get` (line 243) modelled by
the success predicate `dl`.  A transfer failure raises inside the loop
body; `main` has no handler, so the exception propagates: no later entry
is processed and the commit on lines 290-292 is never reached.  On
success the watermark candidate is updated (lines 253-257) and the next
entry is processed. -/
def processBatch (dl : String → Bool) :
    List RemoteEntry → Option Int → Except String (List String × Option Int)
  | [], nl => Except.ok ([], nl)
  | e :: rest, nl =>
      if dl e.filename then
        match processBatch dl rest (updateLatest nl e) with
        | Except.ok p => Except.ok (e.filename :: p.1, p.2)
        | Except.error f => Except.error f
      else Except.error e.filename

/-- One inbound run with possible download failures: either the list of
downloaded names together with the committed watermark, or the name of
the file whose transfer raised, in which case the stored watermark is
left at its pre-run value. -/
def runGetD (dl : String → Bool) (w : Option Int) (es : List RemoteEntry) :
    Except String (List String × Option Int) :=
  match processBatch dl (retainedEntries w es) none with
  | Except.ok p => Except.ok (p.1, commitWatermark w p.2)
  | Except.error f => Except.error f

/-! ### The outbound path, `send_nsc_files.py` lines 126-148 -/

/-- One file of the local outbox, as `pathlib` presents it: its stem and
its suffix (the suffix includes the leading dot, or is empty). -/
structure OutFile where
  stem : String
  suffix : String
deriving Repr, DecidableEq

/-- The file's name, `stem + suffix`. -/
def OutFile.name (f : OutFile) : String := f.stem ++ f.suffix

/-- The archive name of line 146: the stem, an underscore, the run
timestamp, then the suffix. -/
def archiveName (ts : String) (f : OutFile) : String :=
  f.stem ++ "_" ++ ts ++ f.suffix

/-- The send loop with `sftp.put` (line 129) modelled by the success
predicate `up`: for each outbox file in order, upload, append the
`Uploaded` audit row (lines 135-143, recorded as the pair of the file
name and the archive name it is then moved to), move the file out of the
outbox (line 148).  A `put` failure raises with no handler, aborting the
loop: that file and every later one get neither a record nor a move.
Returns (audit rows, names removed from the outbox, whether the run
aborted). -/
def runSend (up : String → Bool) (ts : String) :
    List OutFile → List (String × String) × List String × Bool
  | [] => ([], [], false)
  | f :: rest =>
      if up f.name then
        let p := runSend up ts rest
        ((f.name, archiveName ts f) :: p.1, f.name :: p.2.1, p.2.2)
      else ([], [], true)

/-! ### Concrete example data used by counterexamples and witnesses -/

/-- The decomposition of the remote name
`00112233_000001_DETLRPT_SE_08152024101500_fall2024_submitted.csv`. -/
def dEx : DecomposedName :=
  { schoolcode := "00112233", idx := "000001", nsctype := "DETLRPT"
    nscmode := "SE", subdatetime := "08152024101500"
    fn := "fall2024_submitted", ext := "csv" }

/-- Rule R1 of the spec's precedence example: mode `SE`, no secondary
pattern, template rendering to `A.csv`. -/
def ruleTemplA : RenameRule :=
  { mode := some "SE", patt := none, replace := fun _ _ => "A.csv"
    importFlag := false }

/-- Rule R2 of the spec's precedence example: mode `SE`, the secondary
pattern `.*` (matching every base name, no groups), template rendering
to `B.csv`. -/
def ruleTemplB : RenameRule :=
  { mode := some "SE", patt := some (fun _ => some [])
    replace := fun _ _ => "B.csv", importFlag := false }

/-- A secondary pattern that matches no base name, standing for `^X`
against `fall2024_submitted`. -/
def pMiss : String → Option (List (String × String)) := fun _ => none

/-- A rule whose mode `SE` matches but whose secondary pattern misses,
with a template rendering to `RENAMED.csv`. -/
def ruleMiss : RenameRule :=
  { mode := some "SE", patt := some pMiss
    replace := fun _ _ => "RENAMED.csv", importFlag := false }

/-- A rule whose mode filter `DA` does not match an `SE` file but whose
`import` flag is set. -/
def ruleImportDA : RenameRule :=
  { mode := some "DA", patt := none, replace := fun _ _ => "ZZZ.csv"
    importFlag := true }

/-! ### C1 — rule precedence -/

/-- C1 counterexample.  The claim says resolution is first-match-wins:
with R1 = `ruleTemplA` (mode `SE`, no pattern, template `A.csv`) and
R2 = `ruleTemplB` (mode `SE`, pattern matching everything, template
`B.csv`) in that order and a file of mode `SE`, the resolved name should
come from R1 (`A.csv`), and no later rule should change it.  In the
code the loop has no `break`: R1's mode matches and its template renders
`A.csv`, yet the resolved local name is `B.csv`, from R2. -/
theorem first_match_does_not_win :
    ruleTemplA.mode = some dEx.nscmode
    ∧ stepName dEx "orig.csv" ruleTemplA = "A.csv"
    ∧ (resolveFile [ruleTemplA, ruleTemplB] "AGGRRPT" dEx "orig.csv").1
        = some "B.csv" :=
  ⟨rfl, rfl, rfl⟩

/-- C1 (amended): resolution is last-rule-determined.  Every catalog
entry overwrites `local_file_name` — with its template when its mode
filter matches, with the original remote name otherwise — so the final
resolved name is exactly the outcome of the last rule in declaration
order, and earlier matching rules cannot influence it. -/
theorem resolve_determined_by_last_rule (rules : List RenameRule)
    (r : RenameRule) (importType : String) (d : DecomposedName)
    (fileName : String) :
    (resolveFile (rules ++ [r]) importType d fileName).1
      = some (stepName d fileName r) := by
  unfold resolveFile
  rw [List.foldl_append]
  rfl

/-! ### C2 — pattern-miss fallthrough -/

/-- C2: the code contradicts its own skip-on-pattern-miss branch.  With
a single catalog rule whose mode `SE` matches but whose secondary
pattern (standing for `^X`) does not match the base name
`fall2024_submitted`, the claim — and the unreachable
`else: continue` on line 217 of `get_nsc_files.py` — require the rule
to be skipped, leaving the original name `orig.csv`.  The code instead
renders the rule's template: the resolved name is `RENAMED.csv`. -/
theorem pattern_miss_still_applies_template :
    pMiss dEx.fn = none
    ∧ ruleMiss.patt = some pMiss
    ∧ (resolveFile [ruleMiss] "AGGRRPT" dEx "orig.csv").1 = some "RENAMED.csv"
    ∧ "RENAMED.csv" ≠ "orig.csv" :=
  ⟨rfl, rfl, rfl, by decide⟩

/-! ### C3 — decomposer totality -/

/-- C3 counterexample.  The claim says processing any name never raises,
and a non-grammar name is handled with its identity name.  For the
non-matching name `foo.csv` the named-group globals are never bound, the
rename loop's first access raises `KeyError`, and no identity handling
occurs. -/
theorem decompose_failure_raises :
    nscDecompose "foo.csv" = none
    ∧ processName [ruleTemplA] "DETLRPT" "foo.csv" = Except.error "KeyError" :=
  ⟨rfl, rfl⟩

/-- C3 (amended): decomposition is partial, not total.  Any raw name
without an underscore — the grammar requires five of them — fails the
regex, and processing such a name raises a `KeyError` at the first
named-group access instead of degrading to an identity decomposition. -/
theorem no_underscore_means_keyerror (rules : List RenameRule)
    (importType : String) (s : String) (h : ('_' : Char) ∉ s.toList) :
    nscDecompose s = none
    ∧ processName rules importType s = Except.error "KeyError" := by
  have hnone : nscDecompose s = none := by
    unfold nscDecompose
    rw [List.findSome?_eq_none_iff]
    intro pr hpr
    unfold splitsDesc at hpr
    simp only [List.mem_map, List.mem_range] at hpr
    obtain ⟨k, hk, rfl⟩ := hpr
    simp only
    split
    · split
      · next c rest heq =>
          exfalso
          apply h
          have : ('_' : Char) ∈ s.toList.drop (s.toList.length - k) := by
            rw [heq]; exact List.mem_cons_self _ _
          exact List.drop_subset _ _ this
      · rfl
    · rfl
  refine ⟨hnone, ?_⟩
  unfold processName
  rw [hnone]

/-- C3 witness: the concrete underscore-free name `foo.csv`. -/
theorem no_underscore_means_keyerror_witness :
    processName ([] : List RenameRule) "DETLRPT" "foo.csv"
      = Except.error "KeyError" :=
  (no_underscore_means_keyerror [] "DETLRPT" "foo.csv" (by decide)).2

/-! ### C4 — import gating -/

/-- C4 counterexample.  The claim says an import is dispatched only when
the rule that won resolution has its flag set and the type matches, and
never for unmatched rules.  With a single rule whose mode `DA` does not
match the file's mode `SE` (so the name falls back to `orig.csv` —
no rule matched) but whose flag is set, and a file whose type equals the
configured importable type, the code still arms `import_cmd`: the
condition on line 232 of `get_nsc_files.py` never consults the mode
match. -/
theorem dispatch_without_mode_match :
    ruleImportDA.mode = some "DA"
    ∧ dEx.nscmode = "SE"
    ∧ resolveFile [ruleImportDA] "DETLRPT" dEx "orig.csv"
        = (some "orig.csv", some "orig.csv") :=
  ⟨rfl, rfl, rfl⟩

/-- Auxiliary: whether the final `import_cmd` is armed depends only on
the initial state, the decomposed type and the entries' flags. -/
theorem foldl_ruleStep_snd_isSome (importType : String) (d : DecomposedName)
    (fileName : String) (rules : List RenameRule) :
    ∀ st : Option String × Option String,
      ((rules.foldl (ruleStep importType d fileName) st).2).isSome
        = (st.2.isSome
            || rules.any (fun r => d.nsctype == importType && r.importFlag)) := by
  induction rules with
  | nil => intro st; simp
  | cons r rest ih =>
      intro st
      rw [List.foldl_cons, ih]
      simp only [List.any_cons]
      by_cases hc : (d.nsctype == importType && r.importFlag) = true
      · simp [ruleStep, hc]
      · simp [ruleStep, hc]

/-- C4 (amended): an import command is dispatched if and only if the
decomposed type equals the configured importable type and at least one
catalog entry has its `import` flag set — independently of whether that
entry's (or any entry's) mode filter matched the file. -/
theorem dispatch_characterization (rules : List RenameRule)
    (importType : String) (d : DecomposedName) (fileName : String) :
    (resolveFile rules importType d fileName).2.isSome = true
      ↔ d.nsctype = importType ∧ ∃ r ∈ rules, r.importFlag = true := by
  unfold resolveFile
  rw [foldl_ruleStep_snd_isSome]
  simp only [Option.isSome_none, Bool.false_or, List.any_eq_true,
    Bool.and_eq_true, beq_iff_eq]
  constructor
  · rintro ⟨r, hr, h1, h2⟩
    exact ⟨h1, r, hr, h2⟩
  · rintro ⟨h1, r, hr, h2⟩
    exact ⟨r, hr, h1, h2⟩

/-! ### Auxiliary facts about the watermark candidate -/

/-- One update step is defined and at least `t` when the entry carries
modification time `t`. -/
theorem updateLatest_of_mtime (nl : Option Int) (e : RemoteEntry) (t : Int)
    (h : e.st_mtime = some t) :
    ∃ u, updateLatest nl e = some u ∧ t ≤ u := by
  cases nl with
  | none => exact ⟨t, by simp [updateLatest, h], le_refl t⟩
  | some v =>
      by_cases hv : v < t
      · exact ⟨t, by simp [updateLatest, h, hv], le_refl t⟩
      · exact ⟨v, by simp [updateLatest, h, hv], le_of_not_lt hv⟩

/-- One update step never lowers a defined running value. -/
theorem updateLatest_mono (v : Int) (e : RemoteEntry) :
    ∃ u, updateLatest (some v) e = some u ∧ v ≤ u := by
  cases h : e.st_mtime with
  | none => exact ⟨v, by simp [updateLatest, h], le_refl v⟩
  | some t =>
      by_cases hv : v < t
      · exact ⟨t, by simp [updateLatest, h, hv], le_of_lt hv⟩
      · exact ⟨v, by simp [updateLatest, h, hv], le_refl v⟩

/-- A defined update result is either the previous running value or the
entry's own modification time. -/
theorem updateLatest_source (nl : Option Int) (e : RemoteEntry) (u : Int)
    (h : updateLatest nl e = some u) :
    nl = some u ∨ e.st_mtime = some u := by
  cases nl with
  | none => exact Or.inr (by simpa [updateLatest] using h)
  | some v =>
      cases hm : e.st_mtime with
      | none => left; simpa [updateLatest, hm] using h
      | some t =>
          simp only [updateLatest, hm] at h
          by_cases hv : v < t
          · rw [if_pos hv] at h
            exact Or.inr h
          · rw [if_neg hv] at h
            exact Or.inl h

/-- Folding the update over a batch never lowers a defined value. -/
theorem foldl_updateLatest_mono (l : List RemoteEntry) :
    ∀ v : Int, ∃ u, l.foldl updateLatest (some v) = some u ∧ v ≤ u := by
  induction l with
  | nil => intro v; exact ⟨v, rfl, le_refl v⟩
  | cons e rest ih =>
      intro v
      obtain ⟨u0, h0, hv0⟩ := updateLatest_mono v e
      obtain ⟨u, hu, huu⟩ := ih u0
      exact ⟨u, by rw [List.foldl_cons, h0]; exact hu, le_trans hv0 huu⟩

/-- The batch candidate is an upper bound for every modification time
present in the batch. -/
theorem foldl_updateLatest_ub (l : List RemoteEntry) :
    ∀ (nl : Option Int) (e : RemoteEntry) (t : Int), e ∈ l →
      e.st_mtime = some t →
      ∃ u, l.foldl updateLatest nl = some u ∧ t ≤ u := by
  induction l with
  | nil => intro nl e t hmem; exact absurd hmem (List.not_mem_nil e)
  | cons a rest ih =>
      intro nl e t hmem hmt
      rcases List.mem_cons.mp hmem with heq | hmem'
      · subst heq
        obtain ⟨u0, h0, ht0⟩ := updateLatest_of_mtime nl e t hmt
        obtain ⟨u, hu, huu⟩ := foldl_updateLatest_mono rest u0
        exact ⟨u, by rw [List.foldl_cons, h0]; exact hu, le_trans ht0 huu⟩
      · obtain ⟨u, hu, htu⟩ := ih (updateLatest nl a) e t hmem' hmt
        exact ⟨u, by rw [List.foldl_cons]; exact hu, htu⟩

/-- A defined batch candidate is either the initial value or the
modification time of some entry of the batch. -/
theorem foldl_updateLatest_source (l : List RemoteEntry) :
    ∀ (nl : Option Int) (u : Int), l.foldl updateLatest nl = some u →
      nl = some u ∨ ∃ e ∈ l, e.st_mtime = some u := by
  induction l with
  | nil => intro nl u h; exact Or.inl h
  | cons a rest ih =>
      intro nl u h
      rw [List.foldl_cons] at h
      rcases ih (updateLatest nl a) u h with h1 | ⟨e, he, hmt⟩
      · rcases updateLatest_source nl a u h1 with h2 | h2
        · exact Or.inl h2
        · exact Or.inr ⟨a, List.mem_cons_self a rest, h2⟩
      · exact Or.inr ⟨e, List.mem_cons_of_mem a he, hmt⟩

/-- A retained entry with a modification time lies strictly above the
stored watermark. -/
theorem retained_mtime_gt (es : List RemoteEntry) (e : RemoteEntry)
    (v t : Int) (h1 : e ∈ retainedEntries (some v) es)
    (h2 : e.st_mtime = some t) : v < t := by
  unfold retainedEntries at h1
  rw [List.mem_filter] at h1
  have hs := h1.2
  simp only [skipEntry, h2, Bool.not_eq_true', decide_eq_false_iff_not,
    not_le] at hs
  exact hs

/-- The skip test holds exactly when a watermark is stored at or above
the entry's modification time. -/
theorem skip_true_iff (w : Option Int) (e : RemoteEntry) (t : Int)
    (h : e.st_mtime = some t) :
    skipEntry w e = true ↔ ∃ v, w = some v ∧ t ≤ v := by
  cases w with
  | none =>
      simp [skipEntry]
  | some v =>
      simp only [skipEntry, h, decide_eq_true_eq]
      constructor
      · intro hle; exact ⟨v, rfl, hle⟩
      · rintro ⟨v', hv', hle⟩
        cases hv'
        exact hle

/-! ### C5 — watermark filtering -/

/-- C5: with a stored watermark, an entry carrying a modification time
is retained exactly when that time is strictly greater than the
watermark; with no stored watermark (first-ever run), every entry is
retained.  (Entries with no reported modification time are the separate
edge case of C10.) -/
theorem watermark_filtering (es : List RemoteEntry) (e : RemoteEntry) :
    (∀ v t : Int, e.st_mtime = some t →
        (e ∈ retainedEntries (some v) es ↔ e ∈ es ∧ v < t))
    ∧ (e ∈ retainedEntries none es ↔ e ∈ es) := by
  constructor
  · intro v t ht
    unfold retainedEntries
    rw [List.mem_filter]
    simp [skipEntry, ht, not_le]
  · unfold retainedEntries
    rw [List.mem_filter]
    cases h : e.st_mtime <;> simp [skipEntry, h]

/-- C5 witness: with watermark 3, the entry modified at 5 is retained;
with none stored, it is as well. -/
theorem watermark_filtering_witness :
    (⟨"a", some 5⟩ : RemoteEntry) ∈ retainedEntries (some 3) [⟨"a", some 5⟩]
    ∧ (⟨"a", some 5⟩ : RemoteEntry) ∈ retainedEntries none [⟨"a", some 5⟩] :=
  ⟨((watermark_filtering [⟨"a", some 5⟩] ⟨"a", some 5⟩).1 3 5 rfl).mpr
      (by decide),
   (watermark_filtering [⟨"a", some 5⟩] ⟨"a", some 5⟩).2.mpr (by decide)⟩

/-! ### C6 — watermark commit discipline -/

/-- C6: the watermark is committed once, at the end of the run, and
(1) a run retaining nothing leaves the stored value unchanged;
(2) the committed value is the old one or the modification time of some
retained entry; (3) it is an upper bound of every modification time
observed over the retained batch; (4) it never decreases: the value
read by the next run is at least the one stored before this run. -/
theorem watermark_commit (w : Option Int) (es : List RemoteEntry) :
    (retainedEntries w es = [] → (runGet w es).2 = w)
    ∧ (∀ u, (runGet w es).2 = some u →
        w = some u ∨ ∃ e ∈ retainedEntries w es, e.st_mtime = some u)
    ∧ (∀ e ∈ retainedEntries w es, ∀ t : Int, e.st_mtime = some t →
        ∃ u, (runGet w es).2 = some u ∧ t ≤ u)
    ∧ (∀ v : Int, w = some v → ∃ u, (runGet w es).2 = some u ∧ v ≤ u) := by
  refine ⟨?_, ?_, ?_, ?_⟩
  · intro h
    simp [runGet, h, batchLatest, commitWatermark]
  · intro u hu
    simp only [runGet] at hu
    cases hbl : batchLatest (retainedEntries w es) with
    | none => rw [hbl] at hu; exact Or.inl (by simpa [commitWatermark] using hu)
    | some x =>
        rw [hbl] at hu
        simp only [commitWatermark] at hu
        cases hu
        rcases foldl_updateLatest_source _ _ _ hbl with h1 | h1
        · exact absurd h1 (by simp)
        · exact Or.inr h1
  · intro e he t ht
    obtain ⟨u, hu, htu⟩ := foldl_updateLatest_ub (retainedEntries w es) none e t he ht
    exact ⟨u, by simp [runGet, batchLatest] at hu ⊢; rw [hu]; rfl, htu⟩
  · intro v hv
    cases hbl : batchLatest (retainedEntries w es) with
    | none =>
        refine ⟨v, ?_, le_refl v⟩
        simp [runGet, batchLatest] at hbl ⊢
        rw [hbl, hv]
        rfl
    | some x =>
        refine ⟨x, ?_, ?_⟩
        · simp [runGet, batchLatest] at hbl ⊢
          rw [hbl]
          rfl
        · rcases foldl_updateLatest_source _ _ _ hbl with h1 | ⟨e, he, hmt⟩
          · exact absurd h1 (by simp)
          · subst hv
            exact le_of_lt (retained_mtime_gt es e v x he hmt)

/-- C6 witness: an empty retained batch leaves the stored watermark 3
untouched. -/
theorem watermark_commit_witness : (runGet (some 3) []).2 = some 3 :=
  (watermark_commit (some 3) []).1 rfl

/-! ### C7 — idempotent re-run -/

/-- C7 counterexample.  The claim says a second run against an identical
unchanged listing retains zero entries.  A listing with one entry whose
modification time is absent refutes it: the first run retains the entry
but observes no time, so it commits nothing, and the second run retains
the same entry again — one entry, not zero. -/
theorem rerun_not_idempotent :
    (runGet none [⟨"a", none⟩]).1 = [⟨"a", none⟩]
    ∧ (runGet (runGet none [⟨"a", none⟩]).2 [⟨"a", none⟩]).1 = [⟨"a", none⟩] :=
  ⟨rfl, rfl⟩

/-- C7 (amended): when every listed entry reports a modification time,
a second run against the identical unchanged listing retains zero
entries. -/
theorem rerun_idempotent_with_mtimes (w : Option Int)
    (es : List RemoteEntry) (h : ∀ e ∈ es, e.st_mtime ≠ none) :
    (runGet ((runGet w es).2) es).1 = [] := by
  have hskip : ∀ e ∈ es, skipEntry ((runGet w es).2) e = true := by
    intro e he
    obtain ⟨t, ht⟩ : ∃ t, e.st_mtime = some t := by
      cases hm : e.st_mtime with
      | none => exact absurd hm (h e he)
      | some t => exact ⟨t, rfl⟩
    rw [skip_true_iff _ e t ht]
    cases hbl : batchLatest (retainedEntries w es) with
    | some u =>
        refine ⟨u, ?_, ?_⟩
        · simp only [runGet, batchLatest] at hbl ⊢
          rw [hbl]
          rfl
        · by_cases hr : e ∈ retainedEntries w es
          · obtain ⟨u', hu', htu'⟩ := foldl_updateLatest_ub _ none e t hr ht
            rw [batchLatest] at hbl
            rw [hbl] at hu'
            cases hu'
            exact htu'
          · have hsk : skipEntry w e = true := by
              by_contra hns
              exact hr (List.mem_filter.mpr
                ⟨he, by rw [Bool.not_eq_true] at hns; rw [hns]; rfl⟩)
            obtain ⟨v, hv, htv⟩ := (skip_true_iff w e t ht).mp hsk
            rcases foldl_updateLatest_source _ _ _ hbl with h1 | ⟨e0, he0, hm0⟩
            · exact absurd h1 (by simp)
            · subst hv
              exact le_trans htv (le_of_lt (retained_mtime_gt es e0 v u he0 hm0))
    | none =>
        have hnr : e ∉ retainedEntries w es := by
          intro hr
          obtain ⟨u', hu', _⟩ := foldl_updateLatest_ub _ none e t hr ht
          rw [batchLatest] at hbl
          rw [hbl] at hu'
          exact Option.noConfusion hu'
        have hsk : skipEntry w e = true := by
          by_contra hns
          exact hnr (List.mem_filter.mpr
            ⟨he, by rw [Bool.not_eq_true] at hns; rw [hns]; rfl⟩)
        obtain ⟨v, hv, htv⟩ := (skip_true_iff w e t ht).mp hsk
        refine ⟨v, ?_, htv⟩
        simp only [runGet, batchLatest] at hbl ⊢
        rw [hbl, hv]
        rfl
  simp only [runGet]
  rw [retainedEntries, List.filter_eq_nil_iff]
  intro e he
  rw [Bool.not_eq_true, Bool.not_eq_false']
  exact hskip e he

/-- C7 witness: one entry modified at 5, no prior watermark; the second
run retains nothing. -/
theorem rerun_idempotent_with_mtimes_witness :
    (runGet ((runGet none [⟨"a", some 5⟩]).2) [⟨"a", some 5⟩]).1 = [] :=
  rerun_idempotent_with_mtimes none [⟨"a", some 5⟩] (by decide)

/-! ### C8 — per-file transfer failure isolation -/

/-- C8 counterexample.  The claim says a download failure is caught at
the file boundary, the file is skipped, the run continues and still
commits.  With two retained entries and a transfer that fails on the
first, the run instead terminates with the propagated error: the second
entry is never processed and no commit happens. -/
theorem transfer_failure_aborts_run :
    runGetD (fun s => s != "f1") none [⟨"f1", some 1⟩, ⟨"f2", some 2⟩]
      = Except.error "f1" :=
  rfl

/-- Auxiliary: a failing transfer inside the batch makes the batch loop
terminate with an error. -/
theorem processBatch_error_of_fail (dl : String → Bool)
    (l : List RemoteEntry) :
    ∀ nl : Option Int, (∃ e ∈ l, dl e.filename = false) →
      ∃ f, processBatch dl l nl = Except.error f := by
  induction l with
  | nil =>
      intro nl h
      obtain ⟨e, he, _⟩ := h
      exact absurd he (List.not_mem_nil e)
  | cons a rest ih =>
      intro nl h
      by_cases hd : dl a.filename = true
      · obtain ⟨e, he, hf⟩ := h
        rcases List.mem_cons.mp he with heq | he'
        · subst heq
          rw [hd] at hf
          exact absurd hf (by simp)
        · obtain ⟨f, hf'⟩ := ih (updateLatest nl a) ⟨e, he', hf⟩
          exact ⟨f, by simp [processBatch, hd, hf']⟩
      · rw [Bool.not_eq_true] at hd
        exact ⟨a.filename, by simp [processBatch, hd]⟩

/-- C8 (amended): a download transfer failure is not caught anywhere:
the exception propagates and the run terminates at that file, so the
remaining entries are not processed and the batch-level watermark commit
never happens (the stored watermark keeps its pre-run value). -/
theorem transfer_failure_propagates (dl : String → Bool) (w : Option Int)
    (es : List RemoteEntry)
    (h : ∃ e ∈ retainedEntries w es, dl e.filename = false) :
    ∃ f, runGetD dl w es = Except.error f := by
  obtain ⟨f, hf⟩ := processBatch_error_of_fail dl (retainedEntries w es) none h
  exact ⟨f, by simp [runGetD, hf]⟩

/-- C8 witness: a single retained entry whose transfer fails. -/
theorem transfer_failure_propagates_witness :
    ∃ f, runGetD (fun s => s != "f1") (some 0) [⟨"f1", some 1⟩]
      = Except.error f :=
  transfer_failure_propagates (fun s => s != "f1") (some 0)
    [⟨"f1", some 1⟩] ⟨⟨"f1", some 1⟩, by decide, by decide⟩

/-! ### C9 — upload path -/

/-- C9: every outbox file is removed exactly when its upload was
recorded (the removed names are precisely the first components of the
appended audit rows), and when every upload succeeds the run uploads
each outbox file, records it, and archives it under its stem with the
run-timestamp suffix appended. -/
theorem send_records_iff_archived (up : String → Bool) (ts : String)
    (fs : List OutFile) :
    (runSend up ts fs).2.1 = (runSend up ts fs).1.map Prod.fst
    ∧ ((∀ f ∈ fs, up f.name = true) →
        runSend up ts fs
          = (fs.map (fun f => (f.name, archiveName ts f)),
             fs.map OutFile.name, false)) := by
  induction fs with
  | nil => exact ⟨rfl, fun _ => rfl⟩
  | cons f rest ih =>
      constructor
      · by_cases hf : up f.name = true
        · simp only [runSend, hf, if_true, List.map_cons]
          rw [ih.1]
        · rw [Bool.not_eq_true] at hf
          simp [runSend, hf]
      · intro hall
        have hf : up f.name = true := hall f (List.mem_cons_self f rest)
        have hrest : runSend up ts rest
            = (rest.map (fun g => (g.name, archiveName ts g)),
               rest.map OutFile.name, false) :=
          ih.2 (fun g hg => hall g (List.mem_cons_of_mem f hg))
        simp [runSend, hf, hrest]

/-- C9 witness: a one-file outbox with a succeeding upload: the file is
recorded and archived as `stem_timestamp.suffix`. -/
theorem send_records_iff_archived_witness :
    runSend (fun _ => true) "20240815_101500" [⟨"stu", ".csv"⟩]
      = ([("stu.csv", "stu_20240815_101500.csv")], ["stu.csv"], false) :=
  (send_records_iff_archived (fun _ => true) "20240815_101500"
    [⟨"stu", ".csv"⟩]).2 (fun _ _ => rfl)

/-! ### C10 — entries with a missing modification time -/

/-- C10: an entry whose `st_mtime` is absent is never skipped by the
watermark filter — with or without a stored watermark — and it never
changes the running watermark candidate, so such a file is retained
again on every subsequent run. -/
theorem missing_mtime_always_new (e : RemoteEntry)
    (h : e.st_mtime = none) :
    (∀ w, skipEntry w e = false)
    ∧ (∀ nl, updateLatest nl e = nl)
    ∧ (∀ (w : Option Int) (es : List RemoteEntry), e ∈ es →
        e ∈ retainedEntries w es) := by
  have hs : ∀ w, skipEntry w e = false := by
    intro w
    cases w <;> simp [skipEntry, h]
  refine ⟨hs, ?_, ?_⟩
  · intro nl
    cases nl <;> simp [updateLatest, h]
  · intro w es hm
    exact List.mem_filter.mpr ⟨hm, by rw [hs w]; rfl⟩

/-- C10 witness: the entry with no modification time passes the filter
against watermark 3 and leaves candidate 7 unchanged. -/
theorem missing_mtime_always_new_witness :
    skipEntry (some 3) ⟨"x", none⟩ = false
    ∧ updateLatest (some 7) ⟨"x", none⟩ = some 7 :=
  ⟨(missing_mtime_always_new ⟨"x", none⟩ rfl).1 (some 3),
   (missing_mtime_always_new ⟨"x", none⟩ rfl).2.1 (some 7)⟩

end Nsc
